import Mathlib

/-!
# Verification of the WASM-ImageMagick execution pipeline and file registry

Shallow embedding of `src/execute.ts` (command/config normalization and the
sequential execution orchestrator) and `src/imageHome.ts` (the named-file
registry).  The external processing primitive `call` is modelled as an
oracle parameter; the external file coercion `asInputFile` preserves the
file (it converts representations, keeping the name), so it is modelled as
the identity on the file record.  JavaScript name-keyed objects
(`{ [name: string]: T }`) are modelled as insertion-ordered association
lists: assigning to an existing key updates the value in place (keeping the
key's position), assigning a fresh key appends, and `Object.values`/
`values()` returns the values in that order.
-/

/-- A named content-bearing artifact.  `MagickInputFile` and
`MagickOutputFile` only differ in the representation of their content,
which the claims never inspect, so a single record models both. -/
structure MagickFile where
  name : String
  content : List Nat
deriving DecidableEq, Repr

/-- A command token (`string | number` in the source, `Command = (string | number)[]`). -/
inductive Tok where
  | s (v : String)
  | n (v : Int)
deriving DecidableEq, Repr

/-- A `Command`: one processing invocation, a flat token list (execute.ts line 7). -/
abbrev Command := List Tok

/-- JavaScript stringification `c + ''` applied to a token before dispatch
(execute.ts lines 70 and 74). -/
def tokToString : Tok → String
  | .s v => v
  | .n v => toString v

/-- An `ExecuteCommand`: a command-line string, a single `Command`, or a list of
`Command` (execute.ts line 48). -/
inductive ExecuteCommand where
  | str (s : String)
  | one (c : Command)
  | many (cs : List Command)
deriving DecidableEq, Repr

/-- JavaScript truthiness of an `ExecuteCommand` value: the empty string is
falsy, every other string and every array (even empty) is truthy.  Used by
`isExecuteConfig` (`!!arg.commands`) and by `asExecuteConfig`
(`if (!command)`). -/
def truthyEC : ExecuteCommand → Bool
  | .str s => !(s == "")
  | .one _ => true
  | .many _ => true

/-- Truthiness of an optional `ExecuteCommand` argument: `undefined` is falsy. -/
def truthyCmdOpt : Option ExecuteCommand → Bool
  | none => false
  | some c => truthyEC c

deriving instance DecidableEq for Except

/-! ## Insertion-ordered name-keyed maps (JavaScript object semantics) -/

/-- Assignment `m[k] = v` on a JavaScript object: if the key exists its
value is replaced in place (position kept), otherwise the pair is appended. -/
def mapSet {α : Type} (m : List (String × α)) (k : String) (v : α) : List (String × α) :=
  if m.any (fun p => p.1 == k) then m.map (fun p => if p.1 == k then (k, v) else p)
  else m ++ [(k, v)]

/-- Property read `m[k]`: the value stored under `k`, if any. -/
def mapLookup {α : Type} (m : List (String × α)) (k : String) : Option α :=
  (m.find? (fun p => p.1 == k)).map (fun p => p.2)

/-- The `values()` helper from src/util/misc (Object.values): the values in insertion
order. -/
def mapValues {α : Type} (m : List (String × α)) : List α := m.map (fun p => p.2)

/-- The keys of the map, in insertion order. -/
def mapKeys {α : Type} (m : List (String × α)) : List String := m.map (fun p => p.1)

/-! ## Command Normalizer (`asCommand`)

`asCommand` lives outside the two core source files (it is imported from
`'.'` in execute.ts), so it is modelled from the spec. -/

/-- The single-quote character used by the command-line string grammar. -/
def quoteChar : Char := Char.ofNat 39

/-- Split a character sequence into lines at newline characters.  The
grammar is implemented over `List Char` with structural recursion
throughout so that every definition evaluates inside the kernel. -/
def splitLines : List Char → List Char → List (List Char)
  | [], acc => [acc.reverse]
  | ch :: rest, acc =>
    if ch == '\n' then acc.reverse :: splitLines rest []
    else splitLines rest (ch :: acc)

/-- Drop leading whitespace of a line. -/
def trimLeftL (l : List Char) : List Char := l.dropWhile (fun c => c.isWhitespace)

/-- Drop trailing whitespace of a line. -/
def trimRightL (l : List Char) : List Char := (l.reverse.dropWhile (fun c => c.isWhitespace)).reverse

/-- A line whose first non-whitespace character is `#` is a comment. -/
def isCommentLine (l : List Char) : Bool :=
  match trimLeftL l with
  | c :: _ => c == '#'
  | [] => false

/-- A line ending in `\` (ignoring trailing whitespace) continues on the next line. -/
def endsInContinuation (l : List Char) : Bool :=
  (trimRightL l).getLast? == some '\\'

/-- The line with its trailing `\` and the whitespace around the join point removed. -/
def stripContinuation (l : List Char) : List Char :=
  trimRightL (trimRightL l).dropLast

/-- Modelled from the spec: join `\`-continued lines into logical lines,
the join point collapsing to a single token boundary.  Fuel-indexed so the
definition is structural; the fuel equals the number of lines and strictly
dominates the recursion. -/
def joinContinuationsGo : Nat → List (List Char) → List (List Char)
  | 0, ls => ls
  | _ + 1, [] => []
  | _ + 1, [l] => [l]
  | fuel + 1, l :: l2 :: rest =>
    if endsInContinuation l then
      joinContinuationsGo fuel ((stripContinuation l ++ ' ' :: trimLeftL l2) :: rest)
    else l :: joinContinuationsGo fuel (l2 :: rest)

/-- Join `\`-continued lines into logical lines. -/
def joinContinuations (ls : List (List Char)) : List (List Char) :=
  joinContinuationsGo ls.length ls

/-- Modelled from the spec: tokenization of one logical command line.
Tokens are whitespace-delimited, except that a span enclosed in single
quotes is kept verbatim as part of one token with the quotes stripped. -/
def tokenizeGo : List Char → Bool → List Char → List (List Char) → List (List Char)
  | [], _, acc, toks => toks ++ (if acc.isEmpty then [] else [acc.reverse])
  | ch :: rest, inQ, acc, toks =>
    if ch == quoteChar then tokenizeGo rest (!inQ) acc toks
    else if !inQ && ch.isWhitespace then
      tokenizeGo rest inQ [] (toks ++ (if acc.isEmpty then [] else [acc.reverse]))
    else tokenizeGo rest inQ (ch :: acc) toks

/-- Modelled from the spec: split a logical line into tokens. -/
def tokenizeLine (l : List Char) : List String :=
  (tokenizeGo l false [] []).map (fun cs => String.mk cs)

/-- Modelled from the spec: the command-line string grammar.  Lines are
separated by newlines; comment lines are dropped; continued lines are
joined; each remaining logical line is tokenized; blank logical lines
produce no command. -/
def parseCommandString (s : String) : List Command :=
  let lines := splitLines s.toList []
  let noComments := lines.filter (fun l => !(isCommentLine l))
  let logical := joinContinuations noComments
  (logical.map (fun l => (tokenizeLine l).map Tok.s)).filter (fun c => !(c.isEmpty))

/-- Modelled from the spec: the Command Normalizer `asCommand` (external to
the two core files).  A plain token list is wrapped as a one-element batch,
a list of token lists passes through unchanged, and a string is parsed with
the command-line grammar. -/
def asCommand : ExecuteCommand → List Command
  | .str s => parseCommandString s
  | .one c => [c]
  | .many cs => cs

/-! ## Config Normalizer (`isExecuteConfig`, `asExecuteConfig`) -/

/-- The first argument of the top-level entry points
(`ExecuteConfig | ExecuteCommand | MagickInputFile[]`, execute.ts lines
60/92/167).  `obj` is a non-array object whose `commands` key may be absent
(`none`) or present; `filesArr` is an array of file objects; `cmdArg` is a
string or a (possibly nested) token array, i.e. an `ExecuteCommand`.  An
empty array of files and an empty batch are the same JavaScript value; the
model keeps them as distinct constructors, and neither reaches the
file-sequence branch (whose guard needs a file as first element). -/
inductive ExecuteArg where
  | obj (inputFiles : Option (List MagickFile)) (commands : Option ExecuteCommand)
  | filesArr (files : List MagickFile)
  | cmdArg (c : ExecuteCommand)
deriving DecidableEq, Repr

/-- The value stored in the `commands` field of the canonical configuration.
The source casts the raw argument unchecked (`configOrCommandOrFiles as
ExecuteCommand`, execute.ts line 109), so the field can carry a value that
is not an `ExecuteCommand` at all; `nonCommand` records that case. -/
inductive RawCommands where
  | ec (c : ExecuteCommand)
  | nonCommand (a : ExecuteArg)
deriving DecidableEq, Repr

/-- The canonical configuration produced by `asExecuteConfig`
(`{inputFiles, commands}`); `inputFiles` may still be absent when the
caller's config object omitted it. -/
structure NormConfig where
  inputFiles : Option (List MagickFile)
  commands : RawCommands
deriving DecidableEq, Repr

/-- Source `isExecuteConfig` (execute.ts lines 85-87): `!!arg.commands` — JavaScript
truthiness of the `commands` property.  Strings and arrays have no
`commands` property; an object's absent or empty-string `commands` is
falsy. -/
def isExecuteConfig : ExecuteArg → Bool
  | .obj _ (some c) => truthyEC c
  | _ => false

/-- Source `asExecuteConfig` (execute.ts lines 92-111).  Branch 1 (line 93): a
truthy-`commands` object is returned as-is.  Branch 2 (line 97): an array
whose first element is an input file requires a truthy `command` second
argument, else `throw new Error('No command given')`.  Branch 3 (line 107):
everything else becomes `{inputFiles: [], commands: <the raw argument>}`. -/
def asExecuteConfig (arg : ExecuteArg) (command : Option ExecuteCommand) :
    Except String NormConfig :=
  match arg with
  | .obj inF (some c) =>
    if truthyEC c then .ok ⟨inF, .ec c⟩
    else .ok ⟨some [], .nonCommand (.obj inF (some c))⟩
  | .obj inF none => .ok ⟨some [], .nonCommand (.obj inF none)⟩
  | .filesArr (f :: fs) =>
    match command with
    | some c =>
      if truthyEC c then .ok ⟨some (f :: fs), .ec c⟩
      else .error "No command given"
    | none => .error "No command given"
  | .filesArr [] => .ok ⟨some [], .nonCommand (.filesArr [])⟩
  | .cmdArg c => .ok ⟨some [], .ec c⟩

/-- Modelled from the spec: the external `asCommand` applied to the raw
`commands` field.  On a value that is not an `ExecuteCommand` its behavior
is unspecified by the spec; the model yields no commands, which makes
`executeOne` fail (this branch is unreachable under every claim's
hypotheses). -/
def asCommandRaw : RawCommands → List Command
  | .ec c => asCommand c
  | .nonCommand _ => []

/-! ## The external processing primitive `call` -/

/-- The `CallResult` record (src/magickApi.ts, external): the result of one invocation
of the processing engine. -/
structure CallResult where
  stdout : List String
  stderr : List String
  outputFiles : List MagickFile
  exitCode : Nat
  command : List String
  inputFiles : List MagickFile
deriving DecidableEq, Repr

/-- One invocation of the external primitive either resolves with a
`CallResult` or rejects with a thrown value (stringified by the `+`
concatenation in the catch handler). -/
inductive CallOutcome where
  | ok (r : CallResult)
  | thrown (e : String)
deriving DecidableEq, Repr

/-- The external primitive `call(inputFiles, stringTokens)`, an oracle
parameter of the model. -/
def CallOracle : Type := List MagickFile → List String → CallOutcome

/-- The `ExecuteResultOne` record (execute.ts lines 50-53): a `CallResult` plus the
per-attempt `errors` slots (`undefined` on success). -/
structure ExecuteResultOne extends CallResult where
  errors : List (Option String)
deriving DecidableEq, Repr

/-! ## `executeOne` (execute.ts lines 60-83) -/

/-- The body of `executeOne` after config normalization, for a single
already-normalized command: builds the default result (exitCode 1, empty
outputs, echoed command and inputs), invokes the primitive, and converts
the three outcomes (success / non-zero exit / thrown) into an
`ExecuteResultOne`, never raising. -/
def executeOneCore (call : CallOracle) (inputFiles : List MagickFile) (c : Command) :
    ExecuteResultOne :=
  let cmdStrs := c.map tokToString
  let result0 : CallResult :=
    { stderr := [], stdout := [], outputFiles := [], exitCode := 1,
      command := cmdStrs, inputFiles := inputFiles }
  match call inputFiles cmdStrs with
  | .ok result =>
    if result.exitCode ≠ 0 then
      ⟨result, [some ("exit code: " ++ toString result.exitCode ++ " stderr: "
                      ++ String.intercalate "\n" result.stderr)]⟩
    else ⟨result, [none]⟩
  | .thrown e =>
    ⟨result0, [some (e ++ ", exit code: " ++ toString result0.exitCode ++ ", stderr: "
                     ++ String.intercalate "\n" result0.stderr)]⟩

/-- Source `executeOne` (execute.ts lines 60-83): normalizes the config (which can
throw "No command given"), defaults `inputFiles` to `[]`, takes the first
normalized command and runs `executeOneCore`.  When normalization yields no
command at all, `asCommand(config.commands)[0]` is `undefined` and
`command.map` raises a `TypeError` before the `try` block, which escapes
the (async) function as a rejection — modelled as `.error`. -/
def executeOneM (call : CallOracle) (arg : ExecuteArg) (command : Option ExecuteCommand) :
    Except String ExecuteResultOne :=
  match asExecuteConfig arg command with
  | .error e => .error e
  | .ok cfg =>
    let inputFiles := cfg.inputFiles.getD []
    match asCommandRaw cfg.commands with
    | [] => .error "TypeError: command is undefined"
    | c :: _ => .ok (executeOneCore call inputFiles c)

/-! ## `execute` (execute.ts lines 167-212) -/

/-- The mutable locals of `execute`'s batch loop: the name-keyed pools
`allInputFiles`/`allOutputFiles` and the aggregation accumulators. -/
structure ExecState where
  allInputFiles : List (String × MagickFile)
  allOutputFiles : List (String × MagickFile)
  results : List ExecuteResultOne
  allErrors : List (Option String)
  allStdout : List String
  allStderr : List String
deriving DecidableEq, Repr

/-- Absorption of a step's output files into a pool:
`allFiles[f.name] = f` for each output in order (the external `asInputFile`
coercion keeps the file's name, so the input pool receives the file under
the same name). -/
def absorbFiles (m : List (String × MagickFile)) (fs : List MagickFile) :
    List (String × MagickFile) :=
  fs.foldl (fun m f => mapSet m f.name f) m

/-- Loading a plain file list into a name-keyed pool
(`config.inputFiles.forEach(f => allInputFiles[f.name] = f)`,
execute.ts lines 174-176). -/
def buildMap (fs : List MagickFile) : List (String × MagickFile) :=
  absorbFiles [] fs

/-- The loop state before any step: caller inputs loaded, everything else
empty (execute.ts lines 171-180). -/
def execInit (inputFiles : List MagickFile) : ExecState :=
  { allInputFiles := buildMap inputFiles, allOutputFiles := [],
    results := [], allErrors := [], allStdout := [], allStderr := [] }

/-- One iteration of `mapper` (execute.ts lines 181-197): run `executeOne`
on `{inputFiles: values(allInputFiles), commands: [c]}` (this call always
takes `executeOne`'s success path — see `executeOneM_on_step`), push the
result, concatenate errors/stdout/stderr, and absorb the step's output
files into both pools. -/
def execStep (call : CallOracle) (s : ExecState) (c : Command) : ExecState :=
  let r := executeOneCore call (mapValues s.allInputFiles) c
  { allInputFiles := absorbFiles s.allInputFiles r.outputFiles
    allOutputFiles := absorbFiles s.allOutputFiles r.outputFiles
    results := s.results ++ [r]
    allErrors := s.allErrors ++ r.errors
    allStdout := s.allStdout ++ r.stdout
    allStderr := s.allStderr ++ r.stderr }

/-- The loop state after running a prefix of the batch
(`pMap(commands, mapper, {concurrency: 1})` runs the steps strictly
serially in source order, so the loop is a left fold). -/
def execStateAfter (call : CallOracle) (inputFiles : List MagickFile)
    (cmds : List Command) : ExecState :=
  cmds.foldl (execStep call) (execInit inputFiles)

/-- The name-keyed input pool just before step `k` (the pool whose `values`
are handed to step `k` as its available input files). -/
def inputMapAt (call : CallOracle) (inputFiles : List MagickFile)
    (cmds : List Command) (k : Nat) : List (String × MagickFile) :=
  (execStateAfter call inputFiles (cmds.take k)).allInputFiles

/-- The `ExecuteResult` record (execute.ts lines 124-129): the aggregate result plus
the per-step results and the normalized command list actually run. -/
structure ExecuteResult extends ExecuteResultOne where
  results : List ExecuteResultOne
  commands : List Command
deriving DecidableEq, Repr

/-- The batch loop and final aggregation of `execute` (execute.ts lines
170-211), parameterized by the caller-supplied input files and the
normalized command list: run every command serially, then build the
aggregate result; the aggregate `exitCode` is the exit code of
`results.find(r => r.exitCode !== 0)`, or 0 when there is none. -/
def executeSteps (call : CallOracle) (inputFiles : List MagickFile)
    (cmds : List Command) : ExecuteResult :=
  let s := execStateAfter call inputFiles cmds
  { outputFiles := mapValues s.allOutputFiles
    errors := s.allErrors
    results := s.results
    stdout := s.allStdout
    stderr := s.allStderr
    exitCode := match s.results.find? (fun r => r.exitCode != 0) with
      | some r => r.exitCode
      | none => 0
    command := []
    commands := cmds
    inputFiles := inputFiles }

/-- Source `execute` (execute.ts lines 167-212): normalize the config (which can
throw "No command given"), default the input files, normalize the commands
and run the batch loop. -/
def executeM (call : CallOracle) (arg : ExecuteArg) (command : Option ExecuteCommand) :
    Except String ExecuteResult :=
  match asExecuteConfig arg command with
  | .error e => .error e
  | .ok cfg => .ok (executeSteps call (cfg.inputFiles.getD []) (asCommandRaw cfg.commands))

/-! ## The File Registry (`imageHome.ts`) -/

/-- One registry slot: the future's eventual file (the external
`asInputFile` conversion keeps the record) and the `resolved` flag that the
attached continuation sets once the conversion completes.  A freshly
registered entry is pending (`resolved = false`). -/
structure ImageEntry where
  file : MagickFile
  resolved : Bool
deriving DecidableEq, Repr

/-- The private state of an `ImageHomeImpl` instance: the name-keyed
`images` map and the `builtInImagesAdded` lifecycle flag
(imageHome.ts lines 38-39). -/
structure ImageHomeState where
  images : List (String × ImageEntry)
  builtInImagesAdded : Bool
deriving DecidableEq, Repr

/-- Source `createImageHome()` (imageHome.ts line 81): a fresh instance with an
empty map and the lifecycle flag unset. -/
def homeInitial : ImageHomeState :=
  { images := [], builtInImagesAdded := false }

/-- Source `register(file, name = file.name)` (imageHome.ts lines 60-67):
immediately stores the pending conversion future under `name`
(`this.images[name] = promise`), overwriting any existing entry; the
`resolved` flag is only set later by the attached continuation. -/
def register (s : ImageHomeState) (file : MagickFile) (name : String := file.name) :
    ImageHomeState :=
  { s with images := mapSet s.images name ⟨file, false⟩ }

/-- Source `isRegistered(name, andReady = true)` (imageHome.ts lines 69-71):
`this.images[name] && (andReady && this.images[name].resolved)` coerced to
a boolean — an absent entry yields `undefined` (falsy); a present entry
yields `andReady && resolved`. -/
def isRegistered (s : ImageHomeState) (name : String) (andReady : Bool := true) : Bool :=
  match mapLookup s.images name with
  | none => false
  | some e => andReady && e.resolved

/-- Source `addBuiltInImages()` (imageHome.ts lines 73-78): when the lifecycle
flag is unset, register every built-in image (an external image set, an
oracle parameter here) and set the flag; otherwise do nothing.  The second
component instruments the call with the list of names actually registered,
so that "performs the bulk registration exactly once" is observable. -/
def addBuiltInImages (builtIns : List MagickFile) (s : ImageHomeState) :
    ImageHomeState × List String :=
  if !s.builtInImagesAdded then
    let s' := builtIns.foldl (fun st f => register st f) s
    ({ s' with builtInImagesAdded := true }, builtIns.map (fun f => f.name))
  else (s, [])

/-! ## Lemmas about the name-keyed maps -/

theorem mapLookup_mapSet {α : Type} (m : List (String × α)) (k : String) (v : α)
    (n : String) :
    mapLookup (mapSet m k v) n = if k = n then some v else mapLookup m n := by
  unfold mapSet mapLookup
  by_cases h : m.any (fun p => p.1 == k)
  · rw [if_pos h, List.find?_map]
    have hqf : ((fun p : String × α => p.1 == n) ∘ fun p => if p.1 == k then (k, v) else p)
        = fun p : String × α => p.1 == n := by
      funext p
      by_cases hp : p.1 = k
      · simp [hp]
      · simp [hp]
    rw [hqf]
    by_cases hkn : k = n
    · subst hkn
      rcases hs : m.find? (fun p => p.1 == k) with _ | p0
      · exfalso
        rcases List.any_eq_true.mp h with ⟨p, hp, hpk⟩
        exact (List.find?_eq_none.mp hs p hp) hpk
      · have hp0 : p0.1 = k := by simpa using List.find?_some hs
        rw [hs, Option.map_some']
        simp [hp0]
    · rw [if_neg hkn]
      rcases hs : m.find? (fun p => p.1 == n) with _ | p0
      · rw [hs]; rfl
      · have hp0 : p0.1 = n := by simpa using List.find?_some hs
        rw [hs, Option.map_some', Option.map_some']
        simp [Function.comp, hp0, hkn, Ne.symm hkn]
  · rw [if_neg h, List.find?_append]
    by_cases hkn : k = n
    · subst hkn
      have hnone : m.find? (fun p => p.1 == k) = none := by
        rw [List.find?_eq_none]
        intro p hp hpk
        exact h (List.any_eq_true.mpr ⟨p, hp, hpk⟩)
      simp [hnone]
    · have h1 : (k == n) = false := by simp [hkn]
      rw [if_neg hkn]
      have hone : List.find? (fun p : String × α => p.1 == n) [(k, v)] = none := by
        simp [h1]
      rw [hone, Option.or_none]

theorem mapLookup_foldl_mapSet {α β : Type} (key : β → String) (val : β → α)
    (l : List β) (m : List (String × α)) (n : String) :
    mapLookup (l.foldl (fun m b => mapSet m (key b) (val b)) m) n
      = match l.reverse.find? (fun b => key b == n) with
        | some b => some (val b)
        | none => mapLookup m n := by
  induction l generalizing m with
  | nil => simp
  | cons b t ih =>
    rw [List.foldl_cons, ih, List.reverse_cons, List.find?_append]
    cases h : t.reverse.find? (fun b => key b == n) with
    | some b' => simp [Option.or]
    | none =>
      simp only [Option.or, h]
      by_cases hb : key b = n
      · simp [hb, mapLookup_mapSet]
      · have hbb : (key b == n) = false := by simp [hb]
        simp [hbb, mapLookup_mapSet, hb]

theorem mapKeys_mapSet {α : Type} (m : List (String × α)) (k : String) (v : α) :
    mapKeys (mapSet m k v)
      = if m.any (fun p => p.1 == k) then mapKeys m else mapKeys m ++ [k] := by
  unfold mapSet mapKeys
  by_cases h : m.any (fun p => p.1 == k)
  · rw [if_pos h, if_pos h, List.map_map]
    exact List.map_congr_left (fun p _ => by
      by_cases hp : p.1 = k
      · simp [hp]
      · simp [hp])
  · rw [if_neg h, if_neg h, List.map_append]
    rfl

theorem nodup_mapKeys_mapSet {α : Type} (m : List (String × α)) (k : String) (v : α)
    (h : (mapKeys m).Nodup) : (mapKeys (mapSet m k v)).Nodup := by
  rw [mapKeys_mapSet]
  by_cases ha : m.any (fun p => p.1 == k)
  · simpa [ha] using h
  · have hk : k ∉ mapKeys m := by
      intro hmem
      rcases List.mem_map.mp hmem with ⟨p, hp, hpk⟩
      exact ha (List.any_eq_true.mpr ⟨p, hp, by simp [hpk]⟩)
    rw [if_neg ha, List.nodup_append]
    refine ⟨h, List.nodup_singleton k, ?_⟩
    intro a hma hsk
    rcases List.mem_singleton.mp hsk with rfl
    exact hk hma

/-- The pools only store a file under its own name. -/
def namesMatch (m : List (String × MagickFile)) : Prop :=
  ∀ p ∈ m, (p.2).name = p.1

theorem namesMatch_mapSet (m : List (String × MagickFile)) (f : MagickFile)
    (h : namesMatch m) : namesMatch (mapSet m f.name f) := by
  unfold mapSet
  by_cases ha : m.any (fun p => p.1 == f.name)
  · simp only [ha, if_true]
    intro p hp
    rcases List.mem_map.mp hp with ⟨q, hq, hqe⟩
    by_cases hqk : q.1 = f.name
    · simp [hqk] at hqe; subst hqe; rfl
    · simp [hqk] at hqe; subst hqe; exact h q hq
  · simp only [ha, if_false]
    intro p hp
    rcases List.mem_append.mp hp with hp | hp
    · exact h p hp
    · rcases List.mem_singleton.mp hp with rfl; rfl

theorem namesMatch_absorbFiles (m : List (String × MagickFile)) (fs : List MagickFile)
    (h : namesMatch m) : namesMatch (absorbFiles m fs) := by
  induction fs generalizing m with
  | nil => exact h
  | cons f t ih => exact ih _ (namesMatch_mapSet m f h)

theorem nodup_mapKeys_absorbFiles (m : List (String × MagickFile)) (fs : List MagickFile)
    (h : (mapKeys m).Nodup) : (mapKeys (absorbFiles m fs)).Nodup := by
  induction fs generalizing m with
  | nil => exact h
  | cons f t ih => exact ih _ (nodup_mapKeys_mapSet m f.name f h)

theorem namesMatch_buildMap (fs : List MagickFile) : namesMatch (buildMap fs) :=
  namesMatch_absorbFiles [] fs (by intro p hp; cases hp)

theorem nodup_mapKeys_buildMap (fs : List MagickFile) : (mapKeys (buildMap fs)).Nodup :=
  nodup_mapKeys_absorbFiles [] fs List.nodup_nil

theorem mapValues_names (m : List (String × MagickFile)) (h : namesMatch m) :
    (mapValues m).map (fun f => f.name) = mapKeys m := by
  unfold mapValues mapKeys
  rw [List.map_map]
  exact List.map_congr_left (fun p hp => h p hp)

/-! ## Lemmas about the batch loop -/

/-- The per-step results of the batch loop started in state `s`, in
execution order. -/
def execTrace (call : CallOracle) (s : ExecState) : List Command → List ExecuteResultOne
  | [] => []
  | c :: cs =>
    executeOneCore call (mapValues s.allInputFiles) c :: execTrace call (execStep call s c) cs

theorem execTrace_length (call : CallOracle) (s : ExecState) (l : List Command) :
    (execTrace call s l).length = l.length := by
  induction l generalizing s with
  | nil => rfl
  | cons c t ih => simp [execTrace, ih]

/-- The loop only appends to `results`: the final `results` are the initial
ones followed by the per-step trace. -/
theorem results_foldl (call : CallOracle) (l : List Command) (s : ExecState) :
    (l.foldl (execStep call) s).results = s.results ++ execTrace call s l := by
  induction l generalizing s with
  | nil => simp [execTrace]
  | cons c t ih =>
    rw [List.foldl_cons, ih]
    show (execStep call s c).results ++ _ = _
    rw [execTrace]
    simp [execStep]

/-- Folding one more step of a prefix. -/
theorem foldl_take_succ {α β : Type} (f : β → α → β) (b : β) (l : List α) (k : Nat)
    (hk : k < l.length) :
    (l.take (k + 1)).foldl f b = f ((l.take k).foldl f b) (l.get ⟨k, hk⟩) := by
  rw [List.take_succ, List.getElem?_eq_getElem hk, Option.toList_some, List.foldl_append,
    List.foldl_cons, List.foldl_nil, List.get_eq_getElem]

/-- The `k`-th step of the trace runs the `k`-th command against the input
pool reached after the first `k` steps. -/
theorem execTrace_get (call : CallOracle) (l : List Command) (s : ExecState) (k : Nat)
    (hk : k < l.length) :
    (execTrace call s l).get? k
      = some (executeOneCore call
          (mapValues ((l.take k).foldl (execStep call) s).allInputFiles)
          (l.get ⟨k, hk⟩)) := by
  induction l generalizing s k with
  | nil => cases hk
  | cons c t ih =>
    cases k with
    | zero => rfl
    | succ k =>
      have hk' : k < t.length := Nat.lt_of_succ_lt_succ hk
      rw [execTrace]
      show (execTrace call (execStep call s c) t).get? k = _
      rw [ih (execStep call s c) k hk']
      rfl

/-- Absorption `absorbFiles` is a left fold, so it splits over appends. -/
theorem absorbFiles_append (m : List (String × MagickFile)) (l1 l2 : List MagickFile) :
    absorbFiles m (l1 ++ l2) = absorbFiles (absorbFiles m l1) l2 := by
  unfold absorbFiles
  rw [List.foldl_append]

/-- The input pool reached after `k` steps is the caller-supplied files
followed by every output file of the first `k` steps, absorbed in order. -/
theorem allInputFiles_after (call : CallOracle) (init : List MagickFile)
    (cmds : List Command) (k : Nat) (hk : k ≤ cmds.length) :
    (execStateAfter call init (cmds.take k)).allInputFiles
      = absorbFiles (buildMap init)
          ((((execTrace call (execInit init) cmds).take k).map
            (fun r => r.outputFiles)).flatten) := by
  induction k with
  | zero => simp [execStateAfter, execInit, absorbFiles]
  | succ k ih =>
    have hklt : k < cmds.length := Nat.lt_of_succ_le hk
    have ih' := ih (Nat.le_of_lt hklt)
    have hstep : execStateAfter call init (cmds.take (k + 1))
        = execStep call (execStateAfter call init (cmds.take k)) (cmds.get ⟨k, hklt⟩) := by
      unfold execStateAfter
      exact foldl_take_succ (execStep call) (execInit init) cmds k hklt
    have htr : k < (execTrace call (execInit init) cmds).length := by
      rw [execTrace_length]; exact hklt
    have hget : (execTrace call (execInit init) cmds).get? k
        = some (executeOneCore call
            (mapValues (execStateAfter call init (cmds.take k)).allInputFiles)
            (cmds.get ⟨k, hklt⟩)) :=
      execTrace_get call cmds (execInit init) k hklt
    rw [hstep]
    show absorbFiles (execStateAfter call init (cmds.take k)).allInputFiles
        (executeOneCore call
          (mapValues (execStateAfter call init (cmds.take k)).allInputFiles)
          (cmds.get ⟨k, hklt⟩)).outputFiles = _
    rw [List.take_succ]
    have hgetc : (execTrace call (execInit init) cmds)[k]?
        = some (executeOneCore call
            (mapValues (execStateAfter call init (cmds.take k)).allInputFiles)
            (cmds.get ⟨k, hklt⟩)) := by
      rw [← List.get?_eq_getElem?]; exact hget
    rw [hgetc]
    simp only [Option.toList_some, List.map_append, List.map_cons, List.map_nil,
      List.flatten_append]
    rw [absorbFiles_append, ← ih']
    simp [absorbFiles]

/-- Lookup in an absorbed pool: the most recent write wins — the first
match scanning the absorbed files from the latest backwards, falling back
to the pool absorbed into. -/
theorem mapLookup_absorbFiles (m : List (String × MagickFile)) (l : List MagickFile)
    (n : String) :
    mapLookup (absorbFiles m l) n
      = match l.reverse.find? (fun f => f.name == n) with
        | some f => some f
        | none => mapLookup m n := by
  have h := mapLookup_foldl_mapSet (fun f : MagickFile => f.name) (fun f : MagickFile => f) l m n
  unfold absorbFiles
  exact h.trans (by cases l.reverse.find? (fun f => f.name == n) <;> rfl)

/-- The batch loop's use of `executeOne`: `mapper` passes
`{inputFiles: values(allInputFiles), commands: [c]}`, whose normalization
always succeeds and yields exactly the one command, so `executeOne` reduces
to `executeOneCore`. -/
theorem executeOneM_on_step (call : CallOracle) (inputs : List MagickFile) (c : Command) :
    executeOneM call (.obj (some inputs) (some (.many [c]))) none
      = .ok (executeOneCore call inputs c) := rfl

/-- The per-step results of the whole batch are the execution trace. -/
theorem executeSteps_results (call : CallOracle) (init : List MagickFile)
    (cmds : List Command) :
    (executeSteps call init cmds).results = execTrace call (execInit init) cmds := by
  show (execStateAfter call init cmds).results = _
  unfold execStateAfter
  rw [results_foldl]
  rfl

/-- List `find?` returns the element at the first index satisfying the
predicate. -/
theorem find?_of_first {α : Type} (l : List α) (p : α → Bool) (k : Nat)
    (hk : k < l.length)
    (hbefore : ∀ j (hj : j < k), p (l.get ⟨j, Nat.lt_trans hj hk⟩) = false)
    (hat : p (l.get ⟨k, hk⟩) = true) :
    l.find? p = some (l.get ⟨k, hk⟩) := by
  induction l generalizing k with
  | nil => cases hk
  | cons a t ih =>
    cases k with
    | zero =>
      have ha : p a = true := hat
      rw [List.find?_cons, ha]
      rfl
    | succ k =>
      have h0 : p a = false := hbefore 0 (Nat.succ_pos k)
      rw [List.find?_cons, h0]
      exact ih k (Nat.lt_of_succ_lt_succ hk)
        (fun j hj => hbefore (j + 1) (Nat.succ_lt_succ hj)) hat

/-- The invariants of the two pools (each file stored under its own name,
no duplicate keys) are preserved by the loop. -/
theorem foldl_execStep_inv (call : CallOracle) (l : List Command) (s : ExecState)
    (h1 : namesMatch s.allInputFiles) (h2 : (mapKeys s.allInputFiles).Nodup)
    (h3 : namesMatch s.allOutputFiles) (h4 : (mapKeys s.allOutputFiles).Nodup) :
    namesMatch (l.foldl (execStep call) s).allInputFiles
  ∧ (mapKeys (l.foldl (execStep call) s).allInputFiles).Nodup
  ∧ namesMatch (l.foldl (execStep call) s).allOutputFiles
  ∧ (mapKeys (l.foldl (execStep call) s).allOutputFiles).Nodup := by
  induction l generalizing s with
  | nil => exact ⟨h1, h2, h3, h4⟩
  | cons c t ih =>
    exact ih (execStep call s c)
      (namesMatch_absorbFiles _ _ h1) (nodup_mapKeys_absorbFiles _ _ h2)
      (namesMatch_absorbFiles _ _ h3) (nodup_mapKeys_absorbFiles _ _ h4)

/-! ## Claims about the orchestrator -/

/-- C1: In every `execute()` batch the steps run strictly serially in
source order: the `k`-th entry of `results` is `executeOne` applied to the
`k`-th normalized command with the input pool reached after the first `k`
steps; and that pool is exactly the caller-supplied input files followed by
every output file of the earlier steps, a later file of the same name
overwriting an earlier one (the lookup of a name finds the latest write,
scanning the caller inputs and the absorbed outputs from the most recent
backwards).  In particular a file name is available to step `k` iff it
occurs among the caller inputs or the outputs of some step `j < k`. -/
theorem claim_c1_serial_threading (call : CallOracle) (init : List MagickFile)
    (cmds : List Command) (k : Nat) (hk : k < cmds.length) :
    (executeSteps call init cmds).results.get? k
      = some (executeOneCore call (mapValues (inputMapAt call init cmds k))
          (cmds.get ⟨k, hk⟩))
  ∧ ∀ n, mapLookup (inputMapAt call init cmds k) n
      = (init ++ (((executeSteps call init cmds).results.take k).map
          (fun r => r.outputFiles)).flatten).reverse.find? (fun f => f.name == n) := by
  constructor
  · rw [executeSteps_results]
    exact execTrace_get call cmds (execInit init) k hk
  · intro n
    have h1 := allInputFiles_after call init cmds k (Nat.le_of_lt hk)
    rw [executeSteps_results]
    show mapLookup (execStateAfter call init (cmds.take k)).allInputFiles n = _
    rw [h1]
    have hbm : buildMap init = absorbFiles [] init := rfl
    rw [hbm, ← absorbFiles_append, mapLookup_absorbFiles]
    cases hf : (init ++ (((execTrace call (execInit init) cmds).take k).map
        (fun r => r.outputFiles)).flatten).reverse.find? (fun f => f.name == n) with
    | none => rfl
    | some f => rfl

/-- C2: the aggregate `exitCode` of an `execute()` batch is the exit code
of the first step (scanning `results` front-to-back) whose exit code is
non-zero, and 0 when every step succeeded; a later failing step never
overrides an earlier one. -/
theorem claim_c2_first_failure_wins (call : CallOracle) (init : List MagickFile)
    (cmds : List Command) :
    ((∀ r ∈ (executeSteps call init cmds).results, r.exitCode = 0) →
      (executeSteps call init cmds).exitCode = 0)
  ∧ ∀ k (hk : k < (executeSteps call init cmds).results.length),
      (∀ j (hj : j < k),
        ((executeSteps call init cmds).results.get ⟨j, Nat.lt_trans hj hk⟩).exitCode = 0) →
      ((executeSteps call init cmds).results.get ⟨k, hk⟩).exitCode ≠ 0 →
      (executeSteps call init cmds).exitCode
        = ((executeSteps call init cmds).results.get ⟨k, hk⟩).exitCode := by
  have hdef : (executeSteps call init cmds).exitCode
      = match (executeSteps call init cmds).results.find? (fun r => r.exitCode != 0) with
        | some r => r.exitCode
        | none => 0 := rfl
  constructor
  · intro h
    rw [hdef]
    have hnone : (executeSteps call init cmds).results.find? (fun r => r.exitCode != 0)
        = none := by
      rw [List.find?_eq_none]
      intro r hr
      simp [h r hr]
    rw [hnone]
  · intro k hk hbefore hat
    have hb : ∀ j (hj : j < k),
        (fun r : ExecuteResultOne => r.exitCode != 0)
          ((executeSteps call init cmds).results.get ⟨j, Nat.lt_trans hj hk⟩) = false := by
      intro j hj
      show (((executeSteps call init cmds).results.get
        ⟨j, Nat.lt_trans hj hk⟩).exitCode != 0) = false
      rw [hbefore j hj]
      rfl
    have ha : (fun r : ExecuteResultOne => r.exitCode != 0)
        ((executeSteps call init cmds).results.get ⟨k, hk⟩) = true := by
      show (((executeSteps call init cmds).results.get ⟨k, hk⟩).exitCode != 0) = true
      exact bne_iff_ne.mpr hat
    rw [hdef, find?_of_first _ _ k hk hb ha]

/-- C4 (amended): a failing step does not halt the batch — `execute()`
always runs every normalized command, and `results` has exactly one entry
per normalized command (so it is never shorter than the command list). -/
theorem claim_c4_amended_no_halt (call : CallOracle) (init : List MagickFile)
    (cmds : List Command) :
    (executeSteps call init cmds).results.length = cmds.length
  ∧ (executeSteps call init cmds).commands = cmds := by
  constructor
  · rw [executeSteps_results, execTrace_length]
  · rfl

/-- A concrete oracle for witnesses: `["c1"]` succeeds and produces the
output file "out.png", `["c2"]` fails with exit code 7, everything else
succeeds with no outputs. -/
def oracleDemo : CallOracle := fun inputs cmd =>
  if cmd = ["c1"] then .ok ⟨["o1"], [], [⟨"out.png", [1]⟩], 0, cmd, inputs⟩
  else if cmd = ["c2"] then .ok ⟨[], ["bad"], [], 7, cmd, inputs⟩
  else .ok ⟨[], [], [], 0, cmd, inputs⟩

/-- Witness for C1: in the two-step batch `[["c1"], ["c3"]]` under
`oracleDemo`, step 1 runs against the pool after step 0, and that pool
contains "out.png", the file produced by step 0. -/
theorem claim_c1_witness :
    (executeSteps oracleDemo [] [[Tok.s "c1"], [Tok.s "c3"]]).results.get? 1
      = some (executeOneCore oracleDemo
          (mapValues (inputMapAt oracleDemo [] [[Tok.s "c1"], [Tok.s "c3"]] 1))
          [Tok.s "c3"])
  ∧ mapLookup (inputMapAt oracleDemo [] [[Tok.s "c1"], [Tok.s "c3"]] 1) "out.png"
      = some ⟨"out.png", [1]⟩ := by
  have h := claim_c1_serial_threading oracleDemo [] [[Tok.s "c1"], [Tok.s "c3"]] 1 (by decide)
  refine ⟨h.1, ?_⟩
  rw [h.2 "out.png"]
  decide

/-- Witness for C2: a three-step batch whose middle step fails with exit
code 7 yields aggregate exit code 7. -/
theorem claim_c2_witness :
    (executeSteps oracleDemo [] [[Tok.s "c3"], [Tok.s "c2"], [Tok.s "c4"]]).exitCode = 7 := by
  have h := (claim_c2_first_failure_wins oracleDemo []
      [[Tok.s "c3"], [Tok.s "c2"], [Tok.s "c4"]]).2 1 (by decide)
    (fun j hj => by
      have hj0 : j = 0 := Nat.lt_one_iff.mp hj
      subst hj0
      exact (by decide : ((executeSteps oracleDemo []
        [[Tok.s "c3"], [Tok.s "c2"], [Tok.s "c4"]]).results.get
          ⟨0, by decide⟩).exitCode = 0))
    (by decide)
  rw [h]
  decide

/-- A concrete oracle for the counterexamples: the command `["a"]` fails
with exit code 5, every other command succeeds and prints "ran". -/
def oracleFailA : CallOracle := fun inputs cmd =>
  if cmd = ["a"] then .ok ⟨[], ["boom"], [], 5, cmd, inputs⟩
  else .ok ⟨["ran"], [], [], 0, cmd, inputs⟩

/-- C4 counterexample: in the two-step batch `[["a"], ["b"]]` under
`oracleFailA`, step 0 fails (exit code 5), yet the batch still runs step 1
(its stdout "ran" is recorded) and `results` has length 2, equal to — not
shorter than — the normalized command list.  This refutes "once any step
fails, no step after it is executed and the results array is
correspondingly shorter". -/
theorem claim_c4_counterexample :
    ((executeSteps oracleFailA [] [[Tok.s "a"], [Tok.s "b"]]).results.get? 0).map
        (fun r => r.exitCode) = some 5
  ∧ (executeSteps oracleFailA [] [[Tok.s "a"], [Tok.s "b"]]).results.length = 2
  ∧ ((executeSteps oracleFailA [] [[Tok.s "a"], [Tok.s "b"]]).results.get? 1).map
        (fun r => r.stdout) = some ["ran"] := by
  decide

/-- The concatenation shape produced by `executeOneCore`'s catch-branch
message, flattened: the thrown value followed by the literal rendering of
the default exit code 1 and the empty joined stderr. -/
theorem thrown_message_shape (e : String) :
    e ++ ", exit code: " ++ toString (1 : Nat) ++ ", stderr: "
        ++ String.intercalate "\n" ([] : List String)
      = e ++ ", exit code: 1, stderr: " := by
  rw [String.append_assoc, String.append_assoc, String.append_assoc]
  congr 1

/-- C3: for every config whose commands normalize to at least one command,
`executeOne` always returns a result and never raises: it reduces to
`executeOneCore` on the first normalized command, and `executeOneCore`
yields (a) on a completed call with non-zero exit code, a single error
message embedding the exit code and the joined stderr; (b) on success,
`errors = [undefined]`; (c) on a thrown/rejected call, a single message
embedding the thrown error, the last-known exit code 1 and the (empty)
joined stderr, on top of the synthetic default result with `exitCode 1`,
no outputs, and the echoed command and input files. -/
theorem claim_c3_executeOne_never_raises (call : CallOracle)
    (inF : Option (List MagickFile)) (cmds : ExecuteCommand)
    (c : Command) (rest : List Command) (h : asCommand cmds = c :: rest) :
    executeOneM call (.obj inF (some cmds)) none
      = .ok (executeOneCore call (inF.getD []) c)
  ∧ (∀ res, call (inF.getD []) (c.map tokToString) = .ok res → res.exitCode ≠ 0 →
      executeOneCore call (inF.getD []) c
        = ⟨res, [some ("exit code: " ++ toString res.exitCode ++ " stderr: "
            ++ String.intercalate "\n" res.stderr)]⟩)
  ∧ (∀ res, call (inF.getD []) (c.map tokToString) = .ok res → res.exitCode = 0 →
      executeOneCore call (inF.getD []) c = ⟨res, [none]⟩)
  ∧ (∀ e, call (inF.getD []) (c.map tokToString) = .thrown e →
      executeOneCore call (inF.getD []) c
        = ⟨{ stderr := [], stdout := [], outputFiles := [], exitCode := 1,
             command := c.map tokToString, inputFiles := inF.getD [] },
           [some (e ++ ", exit code: 1, stderr: ")]⟩) := by
  have htruthy : truthyEC cmds = true := by
    cases cmds with
    | str s =>
      by_cases hs : s = ""
      · subst hs
        rw [show asCommand (.str "") = [] from rfl] at h
        cases h
      · simp [truthyEC, hs]
    | one c0 => rfl
    | many cs => rfl
  refine ⟨?_, ?_, ?_, ?_⟩
  · have hconf : asExecuteConfig (.obj inF (some cmds)) none = .ok ⟨inF, .ec cmds⟩ := by
      simp only [asExecuteConfig]
      rw [if_pos htruthy]
    simp only [executeOneM, hconf, asCommandRaw, h]
  · intro res hcall hne
    simp only [executeOneCore, hcall]
    rw [if_pos hne]
  · intro res hcall h0
    simp only [executeOneCore, hcall]
    rw [if_neg (by rw [h0]; exact fun hx => hx rfl)]
  · intro e hcall
    simp only [executeOneCore, hcall]
    refine congrArg (fun msg => (⟨_, [some msg]⟩ : ExecuteResultOne)) ?_
    exact thrown_message_shape e

/-- Witness for C3: a config with one command under an oracle that throws
"boom" yields the synthetic default result with the combined message. -/
theorem claim_c3_witness :
    executeOneM (fun _ _ => .thrown "boom")
      (.obj (some [⟨"a.png", []⟩]) (some (.many [[Tok.s "id"]]))) none
      = .ok ⟨⟨[], [], [], 1, ["id"], [⟨"a.png", []⟩]⟩,
          [some "boom, exit code: 1, stderr: "]⟩ := by
  have h := claim_c3_executeOne_never_raises (fun _ _ => .thrown "boom")
    (some [⟨"a.png", []⟩]) (.many [[Tok.s "id"]]) [Tok.s "id"] [] rfl
  rw [h.1, h.2.2.2 "boom" rfl]
  decide

/-- C10: the input-file list handed to each step and the aggregate
`outputFiles` of the returned result are the values of name-keyed maps, so
they contain at most one file per name. -/
theorem claim_c10_unique_names (call : CallOracle) (init : List MagickFile)
    (cmds : List Command) (k : Nat) :
    ((mapValues (inputMapAt call init cmds k)).map (fun f => f.name)).Nodup
  ∧ (((executeSteps call init cmds).outputFiles).map (fun f => f.name)).Nodup := by
  have hinit1 : namesMatch (execInit init).allInputFiles := namesMatch_buildMap init
  have hinit2 : (mapKeys (execInit init).allInputFiles).Nodup := nodup_mapKeys_buildMap init
  have hinit3 : namesMatch (execInit init).allOutputFiles := by
    intro p hp; cases hp
  have hinit4 : (mapKeys (execInit init).allOutputFiles).Nodup := List.nodup_nil
  constructor
  · have inv := foldl_execStep_inv call (cmds.take k) (execInit init)
      hinit1 hinit2 hinit3 hinit4
    show ((mapValues (execStateAfter call init (cmds.take k)).allInputFiles).map
      (fun f => f.name)).Nodup
    unfold execStateAfter
    rw [mapValues_names _ inv.1]
    exact inv.2.1
  · have inv := foldl_execStep_inv call cmds (execInit init)
      hinit1 hinit2 hinit3 hinit4
    show ((mapValues (execStateAfter call init cmds).allOutputFiles).map
      (fun f => f.name)).Nodup
    unfold execStateAfter
    rw [mapValues_names _ inv.2.2.1]
    exact inv.2.2.2

/-! ## Claims about the Config Normalizer -/

/-- C5 counterexample: with the file-sequence shape, a command argument
*is* given — the empty string — and yet `asExecuteConfig` throws
"No command given" instead of returning `{inputFiles, commands}`: the guard
is JavaScript truthiness (`if (!command)`), not absence. -/
theorem claim_c5_counterexample :
    asExecuteConfig (.filesArr [⟨"a.png", []⟩]) (some (.str ""))
      = .error "No command given" := by decide

/-- C5 (amended): for the file-sequence shape, `asExecuteConfig` throws
"No command given" when the command argument is absent *or falsy* (the
empty string); when a truthy command is given (any non-empty string or any
array) it returns `{inputFiles: the array, commands: the command}` with no
further validation.  The throw happens at normalization, before any step:
`execute` fails with the same error for every oracle. -/
theorem claim_c5_amended_no_command (f : MagickFile) (fs : List MagickFile)
    (call : CallOracle) :
    (asExecuteConfig (.filesArr (f :: fs)) none = .error "No command given")
  ∧ (∀ c, truthyEC c = true →
      asExecuteConfig (.filesArr (f :: fs)) (some c) = .ok ⟨some (f :: fs), .ec c⟩)
  ∧ (∀ c, truthyEC c = false →
      asExecuteConfig (.filesArr (f :: fs)) (some c) = .error "No command given")
  ∧ (executeM call (.filesArr (f :: fs)) none = .error "No command given") := by
  refine ⟨rfl, ?_, ?_, rfl⟩
  · intro c hc
    simp only [asExecuteConfig]
    rw [if_pos hc]
  · intro c hc
    simp only [asExecuteConfig]
    rw [if_neg (by rw [hc]; exact fun hx => Bool.noConfusion hx)]

/-- Witness for C5 (amended): one file plus the truthy command
`["identify"]` normalizes to that file list and command. -/
theorem claim_c5_witness :
    asExecuteConfig (.filesArr [⟨"a.png", []⟩]) (some (.one [Tok.s "identify"]))
      = .ok ⟨some [⟨"a.png", []⟩], .ec (.one [Tok.s "identify"])⟩ :=
  (claim_c5_amended_no_command ⟨"a.png", []⟩ [] (fun _ _ => .thrown "x")).2.1
    (.one [Tok.s "identify"]) rfl

/-- C9 counterexample: the object `{commands: ""}` carries a `commands`
key, yet `isExecuteConfig` rejects it — the discriminator is the
truthiness of the value (`!!arg.commands`), not the presence of the key. -/
theorem claim_c9_counterexample :
    isExecuteConfig (.obj none (some (.str ""))) = false := rfl

/-- C9 (amended): a value is accepted as an `ExecuteConfig` iff it is an
object whose `commands` key holds a truthy value (any array, or a
non-empty string); such an object is returned as the canonical
configuration unchanged, and every other value — including an object whose
`commands` is the empty string — is treated as one of the other call
shapes. -/
theorem claim_c9_amended_discriminator (a : ExecuteArg) (cmd? : Option ExecuteCommand) :
    (isExecuteConfig a = true ↔ ∃ inF c, a = .obj inF (some c) ∧ truthyEC c = true)
  ∧ (∀ inF c, a = .obj inF (some c) → truthyEC c = true →
      asExecuteConfig a cmd? = .ok ⟨inF, .ec c⟩) := by
  constructor
  · constructor
    · intro h
      cases a with
      | obj inF cmds? =>
        cases cmds? with
        | some c => exact ⟨inF, c, rfl, h⟩
        | none => exact Bool.noConfusion h
      | filesArr fs => exact Bool.noConfusion h
      | cmdArg c => exact Bool.noConfusion h
    · rintro ⟨inF, c, rfl, hc⟩
      exact hc
  · intro inF c ha hc
    subst ha
    simp only [asExecuteConfig]
    rw [if_pos hc]

/-- Witness for C9 (amended): an object with a truthy `commands` array is
accepted and returned as the canonical configuration. -/
theorem claim_c9_witness :
    isExecuteConfig (.obj (some []) (some (.one [Tok.s "x"]))) = true
  ∧ asExecuteConfig (.obj (some []) (some (.one [Tok.s "x"]))) none
      = .ok ⟨some [], .ec (.one [Tok.s "x"])⟩ := by
  have h := claim_c9_amended_discriminator (.obj (some []) (some (.one [Tok.s "x"]))) none
  exact ⟨h.1.mpr ⟨some [], .one [Tok.s "x"], rfl, rfl⟩,
    h.2 (some []) (.one [Tok.s "x"]) rfl rfl⟩

/-! ## Claims about the File Registry -/

/-- A registry holding one pending entry under "x". -/
def pendingReg : ImageHomeState :=
  { images := [("x", ⟨⟨"x", []⟩, false⟩)], builtInImagesAdded := false }

/-- A registry holding one resolved entry under "x". -/
def resolvedReg : ImageHomeState :=
  { images := [("x", ⟨⟨"x", []⟩, true⟩)], builtInImagesAdded := false }

/-- C6: evaluation of `isRegistered` as the code computes it.  The claim
(and the spec) say a present entry reports *registered* when `andReady` is
false; the code returns `images[name] && (andReady && images[name].resolved)`,
which is false for every entry — pending or resolved — once `andReady` is
false, making the `andReady = false` mode constantly false.  The remaining
conjuncts (pending not-registered under the default, absent always
not-registered, resolved registered under the default) match the claim. -/
theorem claim_c6_code_eval :
    isRegistered pendingReg "x" false = false
  ∧ isRegistered resolvedReg "x" false = false
  ∧ isRegistered pendingReg "x" true = false
  ∧ isRegistered resolvedReg "x" true = true
  ∧ isRegistered homeInitial "x" true = false
  ∧ isRegistered homeInitial "x" false = false := by decide

/-- Key-uniqueness is preserved by any fold of `mapSet` assignments. -/
theorem nodup_mapKeys_foldl_mapSet {α β : Type} (key : β → String) (val : β → α)
    (l : List β) (m : List (String × α)) (h : (mapKeys m).Nodup) :
    (mapKeys (l.foldl (fun m b => mapSet m (key b) (val b)) m)).Nodup := by
  induction l generalizing m with
  | nil => exact h
  | cons b t ih => exact ih _ (nodup_mapKeys_mapSet m (key b) (val b) h)

/-- A sequence of `register` calls only touches the `images` map, each call
being the assignment of a fresh pending entry under its name. -/
theorem register_foldl_images (calls : List (MagickFile × String)) (s : ImageHomeState) :
    (calls.foldl (fun st p => register st p.1 p.2) s).images
      = calls.foldl (fun m p => mapSet m p.2 (⟨p.1, false⟩ : ImageEntry)) s.images := by
  induction calls generalizing s with
  | nil => rfl
  | cons p t ih =>
    rw [List.foldl_cons, List.foldl_cons, ih]
    rfl

/-- C7: after any sequence of `register(file, name)` calls on a fresh
registry, the registry holds exactly one entry per distinct name (no
duplicate keys), and the entry under each name is the most recently
registered file for that name, recorded as a pending (unresolved) future;
re-registering overwrites with no merge. -/
theorem claim_c7_register_overwrites (calls : List (MagickFile × String)) :
    ((calls.foldl (fun st p => register st p.1 p.2) homeInitial).images.map
      (fun p => p.1)).Nodup
  ∧ ∀ n, mapLookup (calls.foldl (fun st p => register st p.1 p.2) homeInitial).images n
      = (calls.reverse.find? (fun p => p.2 == n)).map
          (fun p => (⟨p.1, false⟩ : ImageEntry)) := by
  have himg := register_foldl_images calls homeInitial
  constructor
  · rw [himg]
    have h2 := nodup_mapKeys_foldl_mapSet (fun p : MagickFile × String => p.2)
      (fun p : MagickFile × String => (⟨p.1, false⟩ : ImageEntry)) calls [] List.nodup_nil
    exact h2
  · intro n
    rw [himg]
    have h := mapLookup_foldl_mapSet (fun p : MagickFile × String => p.2)
      (fun p : MagickFile × String => (⟨p.1, false⟩ : ImageEntry)) calls [] n
    exact h.trans (by cases calls.reverse.find? (fun p => p.2 == n) <;> rfl)

/-- A call on an instance whose lifecycle flag is already set does
nothing: the state is unchanged and nothing is registered. -/
theorem addBuiltInImages_skips (b : List MagickFile) (s : ImageHomeState)
    (h : s.builtInImagesAdded = true) : addBuiltInImages b s = (s, []) := by
  unfold addBuiltInImages
  rw [h]
  rfl

/-- A call on an instance whose lifecycle flag is unset registers the
whole set and sets the flag. -/
theorem addBuiltInImages_runs (b : List MagickFile) (s : ImageHomeState)
    (h : s.builtInImagesAdded = false) :
    addBuiltInImages b s
      = ({ (b.foldl (fun st f => register st f) s) with builtInImagesAdded := true },
         b.map (fun f => f.name)) := by
  unfold addBuiltInImages
  rw [h]
  rfl

/-- C8: on a fresh registry instance, the first `addBuiltInImages()`
registers the whole built-in set and sets the per-instance lifecycle flag;
a second call after the first has completed registers nothing and leaves
the state unchanged — the bulk registration happens exactly once. -/
theorem claim_c8_builtins_once (builtIns : List MagickFile) :
    (addBuiltInImages builtIns homeInitial).2 = builtIns.map (fun f => f.name)
  ∧ (addBuiltInImages builtIns homeInitial).1.builtInImagesAdded = true
  ∧ addBuiltInImages builtIns (addBuiltInImages builtIns homeInitial).1
      = ((addBuiltInImages builtIns homeInitial).1, []) := by
  have h1 := addBuiltInImages_runs builtIns homeInitial rfl
  have hflag : (addBuiltInImages builtIns homeInitial).1.builtInImagesAdded = true := by
    rw [h1]
  exact ⟨by rw [h1], hflag, addBuiltInImages_skips _ _ hflag⟩
